import Mathlib

/-!
Shallow embedding of the Freedom24 profit calculator core
(`python_prototype/src/calculator.py` and `models.py`).

Trades are processed in the order given to `calculate`; quantities, prices
and fees are modelled as exact rationals, dates as naturals (only their
ordering matters and `calculate` never reorders).
-/

namespace Freedom24

/-- `TradeDirection` enum from `models.py`. -/
inductive TradeDirection where
  | buy
  | sell
deriving DecidableEq

/-- `Trade` dataclass from `models.py` (the `datetime_str` debug field is
dropped; it is never read by the calculator). -/
structure Trade where
  date : ℕ
  ticker : String
  direction : TradeDirection
  quantity : ℚ
  price : ℚ
  fee : ℚ
  amount : ℚ
deriving DecidableEq

/-- `Lot` dataclass from `models.py`. -/
structure Lot where
  date : ℕ
  quantity : ℚ
  unit_cost : ℚ
  price_paid : ℚ
  fees_paid : ℚ
deriving DecidableEq

/-- `ClosedTrade` dataclass from `models.py`. -/
structure ClosedTrade where
  ticker : String
  date : ℕ
  quantity : ℚ
  sell_price : ℚ
  sell_fees : ℚ
  cost_basis : ℚ
  realized_profit : ℚ
  sale_proceeds : ℚ
  method : String
deriving DecidableEq

/-- The `1e-9` precision-cleanup constant of the AVG branch. -/
def eps : ℚ := 1 / 1000000000

/-- Total open quantity of a ledger: `sum(l.quantity for l in ledger)`. -/
def totalQty (ledger : List Lot) : ℚ :=
  (ledger.map (fun l => l.quantity)).sum

/-- Total open cost of a ledger: `sum(l.quantity * l.unit_cost for l in ledger)`. -/
def totalCost (ledger : List Lot) : ℚ :=
  (ledger.map (fun l => l.quantity * l.unit_cost)).sum

/-- The FIFO `while` loop of `_process_ticker`: consume head lots while
quantity remains and the ledger is non-empty; returns the accumulated
cost basis and the remaining ledger. -/
def sellFIFO (qty : ℚ) : List Lot → ℚ × List Lot
  | [] => (0, [])
  | l :: rest =>
    if 0 < qty then
      if l.quantity ≤ qty then
        let r := sellFIFO (qty - l.quantity) rest
        (l.quantity * l.unit_cost + r.1, r.2)
      else
        (qty * l.unit_cost, { l with quantity := l.quantity - qty } :: rest)
    else (0, l :: rest)

/-- The AVG branch of `_process_ticker`: blend all open lots into one
weighted-average unit cost, scale every lot by
`(total_qty - qty) / total_qty`, and drop lots whose scaled quantity is
below `eps`.  When the total open quantity is not positive the cost basis
stays `0` and the ledger is untouched. -/
def sellAVG (qty : ℚ) (ledger : List Lot) : ℚ × List Lot :=
  let tq := totalQty ledger
  if 0 < tq then
    let avg := totalCost ledger / tq
    let ratio := (tq - qty) / tq
    (qty * avg,
      (ledger.map (fun l => { l with quantity := l.quantity * ratio })).filter
        (fun l => !(l.quantity < eps)))
  else (0, ledger)

/-- Method dispatch inside the SELL branch: the string comparison of
`_process_ticker`; an unrecognized method leaves the cost basis `0` and the
ledger unchanged (no error is raised). -/
def sellDispatch (method : String) (qty : ℚ) (ledger : List Lot) : ℚ × List Lot :=
  if method = "FIFO" then sellFIFO qty ledger
  else if method = "AVG" then sellAVG qty ledger
  else (0, ledger)

/-- Lot creation on a BUY:
`unit_cost = (price * quantity + fee) / quantity`. -/
def mkLot (tr : Trade) : Lot :=
  { date := tr.date
    quantity := tr.quantity
    unit_cost := (tr.price * tr.quantity + tr.fee) / tr.quantity
    price_paid := tr.price * tr.quantity
    fees_paid := tr.fee }

/-- ClosedTrade creation on a SELL:
`sale_proceeds = price * quantity - fee`, `realized = proceeds - cost_basis`. -/
def mkClosed (ticker method : String) (tr : Trade) (cb : ℚ) : ClosedTrade :=
  { ticker := ticker
    date := tr.date
    quantity := tr.quantity
    sell_price := tr.price
    sell_fees := tr.fee
    cost_basis := cb
    realized_profit := tr.price * tr.quantity - tr.fee - cb
    sale_proceeds := tr.price * tr.quantity - tr.fee
    method := method }

/-- One iteration of the trade loop in `_process_ticker`, acting on the pair
(closed trades so far, current ledger). -/
def stepTrade (ticker method : String) (s : List ClosedTrade × List Lot)
    (tr : Trade) : List ClosedTrade × List Lot :=
  match tr.direction with
  | .buy => (s.1, s.2 ++ [mkLot tr])
  | .sell =>
    let r := sellDispatch method tr.quantity s.2
    (s.1 ++ [mkClosed ticker method tr r.1], r.2)

/-- `_process_ticker`: replay one security's trades through an initially
empty ledger, returning the ClosedTrades it appends and the final ledger. -/
def processTicker (ticker : String) (trades : List Trade) (method : String) :
    List ClosedTrade × List Lot :=
  trades.foldl (stepTrade ticker method) ([], [])

/-- One step of the grouping loop of `calculate`: record a ticker the first
time it is seen (Python dict insertion order). -/
def keyStep (ks : List String) (tr : Trade) : List String :=
  if tr.ticker ∈ ks then ks else ks ++ [tr.ticker]

/-- The grouping loop of `calculate`: ticker keys in first-occurrence order
(Python dict insertion order). -/
def tickerKeys (trades : List Trade) : List String :=
  trades.foldl keyStep []

/-- The trades of one ticker, in input order (the per-key list built by the
grouping loop of `calculate`). -/
def tradesFor (t : String) (trades : List Trade) : List Trade :=
  trades.filter (fun tr => tr.ticker = t)

/-- `calculate`: group by ticker, process each group with `_process_ticker`,
concatenating ClosedTrades and recording each group's final ledger as that
ticker's open position. -/
def calculate (trades : List Trade) (method : String) :
    List ClosedTrade × List (String × List Lot) :=
  let keys := tickerKeys trades
  ((keys.map (fun t => (processTicker t (tradesFor t trades) method).1)).flatten,
    keys.map (fun t => (t, (processTicker t (tradesFor t trades) method).2)))

/-- Boolean SELL test, for counting ClosedTrades per SELL. -/
def isSell (tr : Trade) : Bool :=
  match tr.direction with
  | .sell => true
  | .buy => false

/-- The mutable engine state of `ProfitCalculator`: `self.trades`,
`self.realized_profits` and `self.open_positions`. -/
structure CalcState where
  trades : List Trade
  realized_profits : List ClosedTrade
  open_positions : List (String × List Lot)

/-- Python dict assignment `self.open_positions[ticker] = ledger`: replace
in place when the key exists, else append. -/
def dictInsert (m : List (String × List Lot)) (k : String) (v : List Lot) :
    List (String × List Lot) :=
  if m.any (fun p => p.1 = k) then m.map (fun p => if p.1 = k then (k, v) else p)
  else m ++ [(k, v)]

/-- One iteration of the per-ticker loop of `calculate`, mutating the
engine state. -/
def calcStep (method : String) (st : CalcState) (t : String) : CalcState :=
  let r := processTicker t (tradesFor t st.trades) method
  { st with
      realized_profits := st.realized_profits ++ r.1
      open_positions := dictInsert st.open_positions t r.2 }

/-- Stateful `calculate`: reset `realized_profits` and `open_positions`,
then run the per-ticker loop over the grouped trades. -/
def calculateState (s : CalcState) (method : String) : CalcState :=
  (tickerKeys s.trades).foldl (calcStep method)
    { s with realized_profits := [], open_positions := [] }

/-- BUY 10 @ 100 (fee 0), first trade of the spec's three-trade example. -/
def demoBuy1 : Trade := ⟨1, "AAPL", .buy, 10, 100, 0, 1000⟩

/-- BUY 10 @ 200 (fee 0), second trade of the spec's three-trade example. -/
def demoBuy2 : Trade := ⟨2, "AAPL", .buy, 10, 200, 0, 2000⟩

/-- SELL 15 @ 180 (fee 0), third trade of the spec's three-trade example. -/
def demoSell : Trade := ⟨3, "AAPL", .sell, 15, 180, 0, 2700⟩

/-- The spec's three-trade example sequence. -/
def demoTrades : List Trade := [demoBuy1, demoBuy2, demoSell]

/-- A one-buy-one-sell sequence used to probe an unrecognized method. -/
def badMethodTrades : List Trade :=
  [⟨1, "AAPL", .buy, 1, 100, 0, 100⟩, ⟨2, "AAPL", .sell, 1, 100, 0, 100⟩]

/-- BUY 10 @ 100 (fee 0), the single lot of the overselling example. -/
def oversellBuy : Trade := ⟨1, "AAPL", .buy, 10, 100, 0, 1000⟩

/-- BUY 10 then SELL 20: an overselling sequence. -/
def oversellTrades : List Trade :=
  [oversellBuy, ⟨2, "AAPL", .sell, 20, 50, 0, 1000⟩]

/-- BUY 2 then SELL just under 2, leaving a residue of `1e-10 < 1e-9`. -/
def residueTrades : List Trade :=
  [⟨1, "AAPL", .buy, 2, 100, 0, 200⟩,
   ⟨2, "AAPL", .sell, 2 - 1/10000000000, 100, 0, 200⟩]

/-- Two securities' trade histories interleaved in one input sequence. -/
def interleavedTrades : List Trade :=
  [⟨1, "AAA", .buy, 1, 10, 0, 10⟩, ⟨2, "BBB", .buy, 2, 20, 0, 40⟩,
   ⟨3, "AAA", .sell, 1, 11, 0, 11⟩, ⟨4, "BBB", .sell, 2, 21, 0, 42⟩]

/-- The dispatch at method `"FIFO"` runs the FIFO loop. -/
@[simp] theorem sellDispatch_fifo (q : ℚ) (led : List Lot) :
    sellDispatch "FIFO" q led = sellFIFO q led := by
  simp [sellDispatch]

/-- The dispatch at method `"AVG"` runs the AVG branch. -/
@[simp] theorem sellDispatch_avg (q : ℚ) (led : List Lot) :
    sellDispatch "AVG" q led = sellAVG q led := by
  rw [sellDispatch, if_neg (by decide), if_pos rfl]

/-- An unrecognized method string is silently ignored by the SELL branch:
cost basis `0`, ledger untouched. -/
theorem sellDispatch_other (m : String) (q : ℚ) (led : List Lot)
    (h1 : m ≠ "FIFO") (h2 : m ≠ "AVG") : sellDispatch m q led = (0, led) := by
  rw [sellDispatch, if_neg h1, if_neg h2]

/-- Membership in the accumulated key list of the grouping loop. -/
theorem foldl_keyStep_mem (ts : List Trade) :
    ∀ (acc : List String) (x : String),
      x ∈ ts.foldl keyStep acc ↔ x ∈ acc ∨ ∃ tr ∈ ts, tr.ticker = x := by
  induction ts with
  | nil => simp
  | cons tr ts ih =>
    intro acc x
    have hstep : x ∈ keyStep acc tr ↔ x ∈ acc ∨ tr.ticker = x := by
      unfold keyStep
      by_cases h : tr.ticker ∈ acc
      · simp only [if_pos h]
        constructor
        · exact fun hx => Or.inl hx
        · rintro (hx | hx)
          · exact hx
          · exact hx ▸ h
      · simp [if_neg h, List.mem_append, eq_comm]
    simp only [List.foldl_cons, ih, hstep, List.mem_cons]
    constructor
    · rintro ((h | h) | ⟨tr', h1, h2⟩)
      · exact Or.inl h
      · exact Or.inr ⟨tr, Or.inl rfl, h⟩
      · exact Or.inr ⟨tr', Or.inr h1, h2⟩
    · rintro (h | ⟨tr', (h1 | h1), h2⟩)
      · exact Or.inl (Or.inl h)
      · exact Or.inl (Or.inr (h1 ▸ h2))
      · exact Or.inr ⟨tr', h1, h2⟩

/-- A ticker appears among the keys iff some trade carries it. -/
theorem mem_tickerKeys (ts : List Trade) (x : String) :
    x ∈ tickerKeys ts ↔ ∃ tr ∈ ts, tr.ticker = x := by
  rw [tickerKeys, foldl_keyStep_mem]
  simp

/-- The grouping loop never records a ticker twice. -/
theorem foldl_keyStep_nodup (ts : List Trade) :
    ∀ (acc : List String), acc.Nodup → (ts.foldl keyStep acc).Nodup := by
  induction ts with
  | nil => exact fun acc h => h
  | cons tr ts ih =>
    intro acc hacc
    refine ih _ ?_
    unfold keyStep
    by_cases h : tr.ticker ∈ acc
    · simpa [if_pos h] using hacc
    · simp [if_neg h, List.nodup_append, hacc, h]

/-- The ticker keys of `calculate` are distinct. -/
theorem tickerKeys_nodup (ts : List Trade) : (tickerKeys ts).Nodup :=
  foldl_keyStep_nodup ts [] List.nodup_nil

/-- Each SELL appends exactly one ClosedTrade and each BUY none, for any
method and any starting state of the trade loop. -/
theorem foldl_stepTrade_length (tk m : String) (ts : List Trade) :
    ∀ s : List ClosedTrade × List Lot,
      ((ts.foldl (stepTrade tk m) s).1).length = s.1.length + ts.countP isSell := by
  induction ts with
  | nil => simp
  | cons tr ts ih =>
    intro s
    rw [List.foldl_cons, ih, List.countP_cons]
    cases h : tr.direction with
    | buy => simp [stepTrade, h, isSell]
    | sell => simp [stepTrade, h, isSell]; omega

/-- Every ClosedTrade appended by the trade loop carries the processed
ticker and the method tag. -/
theorem foldl_stepTrade_mem (tk m : String) (ts : List Trade) :
    ∀ s : List ClosedTrade × List Lot, ∀ c ∈ (ts.foldl (stepTrade tk m) s).1,
      c ∈ s.1 ∨ (c.ticker = tk ∧ c.method = m) := by
  induction ts with
  | nil => exact fun s c hc => Or.inl hc
  | cons tr ts ih =>
    intro s c hc
    rw [List.foldl_cons] at hc
    rcases ih _ c hc with h | h
    · cases hd : tr.direction with
      | buy => simp only [stepTrade, hd] at h; exact Or.inl h
      | sell =>
        simp only [stepTrade, hd, List.mem_append, List.mem_singleton] at h
        rcases h with h | h
        · exact Or.inl h
        · exact Or.inr ⟨by rw [h]; rfl, by rw [h]; rfl⟩
    · exact Or.inr h

/-- `_process_ticker` emits exactly one ClosedTrade per SELL trade. -/
theorem processTicker_length (tk : String) (ts : List Trade) (m : String) :
    ((processTicker tk ts m).1).length = ts.countP isSell := by
  rw [processTicker, foldl_stepTrade_length]; simp

/-- Every ClosedTrade of `_process_ticker` carries its ticker and method. -/
theorem processTicker_mem (tk : String) (ts : List Trade) (m : String) :
    ∀ c ∈ (processTicker tk ts m).1, c.ticker = tk ∧ c.method = m := by
  intro c hc
  rcases foldl_stepTrade_mem tk m ts ([], []) c hc with h | h
  · exact absurd h (List.not_mem_nil c)
  · exact h

/-- Splitting a count over a predicate `q`: the matches inside the `q`-part
and the matches outside it add up. -/
theorem countP_filter_add_countP_filter_not (p q : Trade → Bool) (ts : List Trade) :
    (ts.filter q).countP p + (ts.filter (fun tr => !q tr)).countP p = ts.countP p := by
  induction ts with
  | nil => simp
  | cons tr ts ih =>
    by_cases h : q tr
    · simp only [List.filter_cons, h, if_pos, Bool.not_true, Bool.false_eq_true,
        if_false, List.countP_cons, ite_not]
      omega
    · simp only [List.filter_cons, Bool.not_eq_true] at *
      simp only [h, Bool.false_eq_true, if_false, Bool.not_false, if_true,
        List.countP_cons]
      omega

/-- Summing a per-ticker count over a duplicate-free key list covering all
tickers recovers the total count. -/
theorem sum_countP_tradesFor (p : Trade → Bool) :
    ∀ (keys : List String) (ts : List Trade), keys.Nodup →
      (∀ tr ∈ ts, tr.ticker ∈ keys) →
      ((keys.map (fun t => (tradesFor t ts).countP p)).sum = ts.countP p) := by
  intro keys
  induction keys with
  | nil =>
    intro ts _ hcov
    cases ts with
    | nil => simp
    | cons tr ts => exact absurd (hcov tr (List.mem_cons_self tr ts)) (List.not_mem_nil _)
  | cons k ks ih =>
    intro ts hnd hcov
    rw [List.nodup_cons] at hnd
    have hrest : ∀ t ∈ ks, tradesFor t ts =
        tradesFor t (ts.filter (fun tr => !(decide (tr.ticker = k)))) := by
      intro t ht
      have htk : t ≠ k := fun h => hnd.1 (h ▸ ht)
      rw [tradesFor, tradesFor, List.filter_filter]
      refine (List.filter_congr ?_).symm
      intro tr _
      by_cases h : tr.ticker = t
      · have : ¬ tr.ticker = k := fun hk => htk (h ▸ hk ▸ rfl)
        simp [h, this, htk]
      · simp [h]
    have hmap : ks.map (fun t => (tradesFor t ts).countP p) =
        ks.map (fun t =>
          (tradesFor t (ts.filter (fun tr => !(decide (tr.ticker = k))))).countP p) :=
      List.map_congr_left (fun t ht => by rw [hrest t ht])
    rw [List.map_cons, List.sum_cons, hmap,
      ih (ts.filter (fun tr => !(decide (tr.ticker = k)))) hnd.2 ?_]
    · rw [tradesFor]
      exact countP_filter_add_countP_filter_not p (fun tr => decide (tr.ticker = k)) ts
    · intro tr htr
      rw [List.mem_filter] at htr
      have := hcov tr htr.1
      rw [List.mem_cons] at this
      rcases this with h | h
      · exact absurd (decide_eq_true h) (by simpa using htr.2)
      · exact h

/-- `calculate` emits exactly one ClosedTrade per SELL trade of the input. -/
theorem calculate_fst_length (ts : List Trade) (m : String) :
    ((calculate ts m).1).length = ts.countP isSell := by
  rw [calculate]
  simp only [List.length_flatten, List.map_map]
  have : (List.map (List.length ∘ fun t => (processTicker t (tradesFor t ts) m).1)
      (tickerKeys ts)) =
      (tickerKeys ts).map (fun t => (tradesFor t ts).countP isSell) :=
    List.map_congr_left (fun t _ => processTicker_length t (tradesFor t ts) m)
  rw [this, sum_countP_tradesFor isSell (tickerKeys ts) ts (tickerKeys_nodup ts)]
  intro tr htr
  exact (mem_tickerKeys ts tr.ticker).mpr ⟨tr, htr, rfl⟩

/-- The open-position map of `calculate` is keyed exactly by `tickerKeys`. -/
theorem calculate_snd_keys (ts : List Trade) (m : String) :
    ((calculate ts m).2).map Prod.fst = tickerKeys ts := by
  rw [calculate]
  simp [Function.comp_def]

/-- Flattening a map whose entries are all `[]` gives `[]`. -/
theorem flatten_map_eq_nil {α β : Type} (f : β → List α) :
    ∀ l : List β, (∀ x ∈ l, f x = []) → (l.map f).flatten = [] := by
  intro l h
  rw [List.flatten_eq_nil_iff]
  intro xs hxs
  rw [List.mem_map] at hxs
  obtain ⟨x, hx, rfl⟩ := hxs
  exact h x hx

/-- Flattening a map that is `[]` everywhere except at one key of a
duplicate-free list picks out that key's entry. -/
theorem flatten_map_eq_single {α : Type} (f : String → List α) :
    ∀ (keys : List String) (a : String), keys.Nodup → a ∈ keys →
      (∀ t ∈ keys, t ≠ a → f t = []) → (keys.map f).flatten = f a := by
  intro keys
  induction keys with
  | nil =>
    intro a _ ha _
    exact absurd ha (List.not_mem_nil a)
  | cons k ks ih =>
    intro a hnd ha hz
    rw [List.nodup_cons] at hnd
    rw [List.map_cons, List.flatten_cons]
    by_cases hk : a = k
    · subst hk
      have : (ks.map f).flatten = [] := by
        refine flatten_map_eq_nil f ks (fun t ht => ?_)
        exact hz t (List.mem_cons_of_mem _ ht) (fun h => hnd.1 (h ▸ ht))
      rw [this, List.append_nil]
    · have ha' : a ∈ ks := by
        rcases List.mem_cons.mp ha with h | h
        · exact absurd h hk
        · exact h
      rw [hz k (List.mem_cons_self k ks) (fun h => hk h.symm), List.nil_append]
      exact ih a hnd.2 ha' (fun t ht => hz t (List.mem_cons_of_mem _ ht))

/-- The ClosedTrades of `calculate` carrying ticker `a` are exactly the
ClosedTrades of processing `a`'s own trade subsequence. -/
theorem calculate_fst_filter (ts : List Trade) (m a : String) :
    (calculate ts m).1.filter (fun c => c.ticker = a) =
      (processTicker a (tradesFor a ts) m).1 := by
  rw [calculate]
  simp only [List.filter_flatten, List.map_map]
  by_cases ha : a ∈ tickerKeys ts
  · have := flatten_map_eq_single
      (fun t => ((processTicker t (tradesFor t ts) m).1).filter (fun c => c.ticker = a))
      (tickerKeys ts) a (tickerKeys_nodup ts) ha ?_
    · rw [Function.comp_def] at *
      rw [this]
      refine List.filter_eq_self.mpr (fun c hc => ?_)
      exact decide_eq_true (processTicker_mem a (tradesFor a ts) m c hc).1
    · intro t _ hta
      refine List.filter_eq_nil_iff.mpr (fun c hc => ?_)
      have := (processTicker_mem t (tradesFor t ts) m c hc).1
      simp [this, hta]
  · have hfor : tradesFor a ts = [] := by
      refine List.filter_eq_nil_iff.mpr (fun tr htr => ?_)
      intro hdec
      exact ha ((mem_tickerKeys ts a).mpr ⟨tr, htr, of_decide_eq_true hdec⟩)
    rw [hfor]
    have : ((tickerKeys ts).map
        ((List.filter (fun c => decide (c.ticker = a))) ∘
          fun t => (processTicker t (tradesFor t ts) m).1)).flatten = [] := by
      refine flatten_map_eq_nil _ _ (fun t ht => ?_)
      refine List.filter_eq_nil_iff.mpr (fun c hc => ?_)
      have hct := (processTicker_mem t (tradesFor t ts) m c hc).1
      intro hdec
      have hta : t = a := hct.symm.trans (of_decide_eq_true hdec)
      exact ha (hta ▸ ht)
    rw [this]
    rfl

/-- Looking a key up in an association list built by mapping over a key
list. -/
theorem lookup_map_keys {β : Type} (g : String → β) :
    ∀ (keys : List String) (a : String),
      (keys.map (fun t => (t, g t))).lookup a =
        if a ∈ keys then some (g a) else none := by
  intro keys
  induction keys with
  | nil => intro a; simp
  | cons k ks ih =>
    intro a
    rw [List.map_cons, List.lookup_cons]
    by_cases hk : a = k
    · subst hk
      simp
    · have : (a == k) = false := by simp [hk]
      rw [this]
      rw [ih a]
      by_cases ha : a ∈ ks
      · simp [ha, List.mem_cons, hk]
      · simp [ha, List.mem_cons, hk]

/-- The open lots `calculate` reports for ticker `a`: present iff some
trade carries `a`, and equal to the ledger left by processing `a`'s own
subsequence. -/
theorem calculate_snd_lookup (ts : List Trade) (m a : String) :
    ((calculate ts m).2).lookup a =
      if a ∈ tickerKeys ts then some ((processTicker a (tradesFor a ts) m).2)
      else none := by
  rw [calculate]
  exact lookup_map_keys (fun t => (processTicker t (tradesFor t ts) m).2)
    (tickerKeys ts) a

/-- A non-empty trade list whose trades all carry one ticker has exactly
that ticker as its single key. -/
theorem tickerKeys_uniform (a : String) :
    ∀ ts : List Trade, (∀ tr ∈ ts, tr.ticker = a) → ts ≠ [] →
      tickerKeys ts = [a] := by
  have aux : ∀ (ts : List Trade) (acc : List String),
      (∀ tr ∈ ts, tr.ticker = a) → a ∈ acc → ts.foldl keyStep acc = acc := by
    intro ts
    induction ts with
    | nil => intro acc _ _; rfl
    | cons tr ts ih =>
      intro acc h hacc
      rw [List.foldl_cons]
      have : keyStep acc tr = acc := by
        rw [keyStep, if_pos]
        rw [h tr (List.mem_cons_self tr ts)]
        exact hacc
      rw [this]
      exact ih acc (fun tr' htr' => h tr' (List.mem_cons_of_mem _ htr')) hacc
  intro ts h hne
  cases ts with
  | nil => exact absurd rfl hne
  | cons tr ts =>
    rw [tickerKeys, List.foldl_cons]
    have hstep : keyStep [] tr = [a] := by
      rw [keyStep, if_neg (List.not_mem_nil _), List.nil_append,
        h tr (List.mem_cons_self tr ts)]
    rw [hstep]
    exact aux ts [a] (fun tr' htr' => h tr' (List.mem_cons_of_mem _ htr'))
      (List.mem_singleton.mpr rfl)

/-- Open quantity of a ledger with a head lot. -/
@[simp] theorem totalQty_cons (l : Lot) (rest : List Lot) :
    totalQty (l :: rest) = l.quantity + totalQty rest := by
  simp [totalQty]

/-- Open cost of a ledger with a head lot. -/
@[simp] theorem totalCost_cons (l : Lot) (rest : List Lot) :
    totalCost (l :: rest) = l.quantity * l.unit_cost + totalCost rest := by
  simp [totalCost]

/-- A ledger of non-negative lot quantities has non-negative open quantity. -/
theorem totalQty_nonneg (ledger : List Lot)
    (h : ∀ l ∈ ledger, 0 ≤ l.quantity) : 0 ≤ totalQty ledger := by
  refine List.sum_nonneg (fun x hx => ?_)
  rw [List.mem_map] at hx
  obtain ⟨l, hl, rfl⟩ := hx
  exact h l hl

/-- The cleanup constant is positive. -/
theorem eps_pos : 0 < eps := by norm_num [eps]

/-- FIFO overselling: when the ledger holds strictly less than the quantity
sold, the loop consumes every lot; the cost basis is exactly the open cost
of the ledger before the sale and the ledger is left empty. -/
theorem sellFIFO_oversell :
    ∀ (ledger : List Lot) (q : ℚ), (∀ l ∈ ledger, 0 ≤ l.quantity) →
      totalQty ledger < q → sellFIFO q ledger = (totalCost ledger, []) := by
  intro ledger
  induction ledger with
  | nil => intro q _ _; simp [sellFIFO, totalCost]
  | cons l rest ih =>
    intro q hpos hover
    rw [totalQty_cons] at hover
    have hl : 0 ≤ l.quantity := hpos l (List.mem_cons_self l rest)
    have hrest : 0 ≤ totalQty rest :=
      totalQty_nonneg rest (fun l' hl' => hpos l' (List.mem_cons_of_mem _ hl'))
    have h0 : 0 < q := lt_of_le_of_lt (by linarith) hover
    have hle : l.quantity ≤ q := by linarith
    rw [sellFIFO, if_pos h0, if_pos hle,
      ih (q - l.quantity) (fun l' hl' => hpos l' (List.mem_cons_of_mem _ hl'))
        (by linarith)]
    simp

/-- Each lot left by the FIFO loop descends from a lot of the input ledger:
same acquisition date, unit cost, price paid and fees paid, with a
remaining quantity that has not increased. -/
theorem sellFIFO_shrink :
    ∀ (ledger : List Lot) (q : ℚ), ∀ l' ∈ (sellFIFO q ledger).2,
      ∃ l ∈ ledger, l'.date = l.date ∧ l'.unit_cost = l.unit_cost ∧
        l'.price_paid = l.price_paid ∧ l'.fees_paid = l.fees_paid ∧
        l'.quantity ≤ l.quantity := by
  intro ledger
  induction ledger with
  | nil => intro q l' hl'; simp [sellFIFO] at hl'
  | cons l rest ih =>
    intro q l' hl'
    rw [sellFIFO] at hl'
    by_cases h0 : 0 < q
    · rw [if_pos h0] at hl'
      by_cases hle : l.quantity ≤ q
      · rw [if_pos hle] at hl'
        obtain ⟨l₀, hl₀, hfields⟩ := ih (q - l.quantity) l' hl'
        exact ⟨l₀, List.mem_cons_of_mem _ hl₀, hfields⟩
      · rw [if_neg hle] at hl'
        rcases List.mem_cons.mp hl' with h | h
        · exact ⟨l, List.mem_cons_self l rest,
            by rw [h], by rw [h], by rw [h], by rw [h],
            by rw [h]; exact sub_le_self _ (le_of_lt h0)⟩
        · exact ⟨l', List.mem_cons_of_mem _ h, rfl, rfl, rfl, rfl, le_refl _⟩
    · rw [if_neg h0] at hl'
      exact ⟨l', hl', rfl, rfl, rfl, rfl, le_refl _⟩

/-- AVG epsilon cleanup: whenever the AVG branch actually rescales (the
open quantity is positive), no lot below `eps` survives in the returned
ledger. -/
theorem sellAVG_mem_eps (q : ℚ) (ledger : List Lot)
    (h0 : 0 < totalQty ledger) :
    ∀ l' ∈ (sellAVG q ledger).2, ¬ l'.quantity < eps := by
  intro l' hl'
  rw [sellAVG] at hl'
  simp only [if_pos h0] at hl'
  rw [List.mem_filter] at hl'
  simpa using hl'.2

/-- AVG overselling: with a positive open quantity strictly smaller than
the quantity sold, the cost basis is `q × avg_unit_cost` (which exceeds the
open cost whenever that cost is positive) and every lot is scaled negative
and removed, leaving the ledger empty. -/
theorem sellAVG_oversell (q : ℚ) (ledger : List Lot)
    (hpos : ∀ l ∈ ledger, 0 ≤ l.quantity) (h0 : 0 < totalQty ledger)
    (hover : totalQty ledger < q) :
    sellAVG q ledger = (q * (totalCost ledger / totalQty ledger), []) := by
  rw [sellAVG]
  simp only [if_pos h0]
  have hratio : (totalQty ledger - q) / totalQty ledger < 0 :=
    div_neg_of_neg_of_pos (by linarith) h0
  have : (ledger.map
      (fun l => { l with quantity := l.quantity * ((totalQty ledger - q) / totalQty ledger) })).filter
        (fun l => !(l.quantity < eps)) = [] := by
    refine List.filter_eq_nil_iff.mpr (fun l' hl' => ?_)
    rw [List.mem_map] at hl'
    obtain ⟨l, hl, rfl⟩ := hl'
    have : l.quantity * ((totalQty ledger - q) / totalQty ledger) ≤ 0 :=
      mul_nonpos_of_nonneg_of_nonpos (hpos l hl) (le_of_lt hratio)
    simp only [Bool.not_eq_true', decide_eq_false_iff_not, not_not]
    exact lt_of_le_of_lt this eps_pos
  rw [this]

/-- Dict assignment at a fresh key appends the entry. -/
theorem dictInsert_fresh (m : List (String × List Lot)) (k : String)
    (v : List Lot) (h : ∀ p ∈ m, p.1 ≠ k) : dictInsert m k v = m ++ [(k, v)] := by
  rw [dictInsert, if_neg]
  intro hany
  rw [List.any_eq_true] at hany
  obtain ⟨p, hp, hpk⟩ := hany
  exact h p hp (of_decide_eq_true hpk)

/-- Unfolding the per-ticker loop of the stateful `calculate` over a
duplicate-free key list whose keys are absent from the current
open-position dict: trades are untouched, ClosedTrades are appended in
group order, open positions gain one entry per key. -/
theorem foldl_calcStep (m : String) :
    ∀ (keys : List String) (st : CalcState), keys.Nodup →
      (∀ k ∈ keys, ∀ p ∈ st.open_positions, p.1 ≠ k) →
      keys.foldl (calcStep m) st =
        { trades := st.trades
          realized_profits := st.realized_profits ++
            (keys.map (fun t => (processTicker t (tradesFor t st.trades) m).1)).flatten
          open_positions := st.open_positions ++
            keys.map (fun t => (t, (processTicker t (tradesFor t st.trades) m).2)) } := by
  intro keys
  induction keys with
  | nil =>
    intro st _ _
    simp
  | cons k ks ih =>
    intro st hnd hdis
    rw [List.nodup_cons] at hnd
    rw [List.foldl_cons]
    have hfresh : dictInsert st.open_positions k
        (processTicker k (tradesFor k st.trades) m).2 =
        st.open_positions ++ [(k, (processTicker k (tradesFor k st.trades) m).2)] :=
      dictInsert_fresh _ _ _ (fun p hp => hdis k (List.mem_cons_self k ks) p hp)
    have hstep : calcStep m st k =
        { trades := st.trades
          realized_profits :=
            st.realized_profits ++ (processTicker k (tradesFor k st.trades) m).1
          open_positions :=
            st.open_positions ++ [(k, (processTicker k (tradesFor k st.trades) m).2)] } := by
      rw [calcStep]
      simp only [hfresh]
    rw [hstep, ih _ hnd.2 ?_]
    · simp [List.append_assoc]
    · intro k' hk' p hp
      rcases List.mem_append.mp hp with h | h
      · exact hdis k' (List.mem_cons_of_mem _ hk') p h
      · rw [List.mem_singleton] at h
        rw [h]
        intro hkk
        have : k = k' := hkk
        exact hnd.1 (this ▸ hk')

/-- The stateful `calculate` resets its outputs: the resulting state keeps
the trades and carries exactly the pure `calculate` results, whatever
`realized_profits` and `open_positions` held before the call. -/
theorem calculateState_eq (s : CalcState) (m : String) :
    calculateState s m =
      { trades := s.trades
        realized_profits := (calculate s.trades m).1
        open_positions := (calculate s.trades m).2 } := by
  rw [calculateState,
    foldl_calcStep m (tickerKeys s.trades)
      { s with realized_profits := [], open_positions := [] }
      (tickerKeys_nodup s.trades) (by intro k _ p hp; simp at hp)]
  simp [calculate]

/-- With an unrecognized method every ClosedTrade appended by the trade
loop has cost basis `0`. -/
theorem foldl_stepTrade_cb (tk m : String) (h1 : m ≠ "FIFO") (h2 : m ≠ "AVG")
    (ts : List Trade) :
    ∀ s : List ClosedTrade × List Lot, (∀ c ∈ s.1, c.cost_basis = 0) →
      ∀ c ∈ (ts.foldl (stepTrade tk m) s).1, c.cost_basis = 0 := by
  induction ts with
  | nil => exact fun s hs => hs
  | cons tr ts ih =>
    intro s hs
    rw [List.foldl_cons]
    refine ih _ ?_
    cases hd : tr.direction with
    | buy => simpa [stepTrade, hd] using hs
    | sell =>
      simp only [stepTrade, hd, sellDispatch_other m tr.quantity s.2 h1 h2]
      intro c hc
      rcases List.mem_append.mp hc with h | h
      · exact hs c h
      · rw [List.mem_singleton] at h
        rw [h]
        rfl

/-- With an unrecognized method every ClosedTrade of `calculate` has cost
basis `0`. -/
theorem calculate_cb_zero (ts : List Trade) (m : String)
    (h1 : m ≠ "FIFO") (h2 : m ≠ "AVG") :
    ∀ c ∈ (calculate ts m).1, c.cost_basis = 0 := by
  intro c hc
  rw [calculate] at hc
  rw [List.mem_flatten] at hc
  obtain ⟨cs, hcs, hcmem⟩ := hc
  rw [List.mem_map] at hcs
  obtain ⟨t, _, rfl⟩ := hcs
  exact foldl_stepTrade_cb t m h1 h2 (tradesFor t ts) ([], [])
    (fun c' hc' => absurd hc' (List.not_mem_nil c')) c hcmem

/-- Restricting `calculate` to one ticker: the ClosedTrades carrying ticker
`x` and the open position recorded under `x` coincide with those of running
`calculate` on `x`'s trade subsequence alone. -/
theorem calc_restrict (ts : List Trade) (m x : String) :
    (calculate ts m).1.filter (fun c => c.ticker = x) =
      (calculate (tradesFor x ts) m).1 ∧
    ((calculate ts m).2).lookup x = ((calculate (tradesFor x ts) m).2).lookup x := by
  have hA : ∀ tr ∈ tradesFor x ts, tr.ticker = x := fun tr htr =>
    of_decide_eq_true (List.mem_filter.mp htr).2
  by_cases hne : tradesFor x ts = []
  · have hnk : x ∉ tickerKeys ts := by
      intro hx
      obtain ⟨tr, htr, htk⟩ := (mem_tickerKeys ts x).mp hx
      have : tr ∈ tradesFor x ts :=
        List.mem_filter.mpr ⟨htr, decide_eq_true htk⟩
      rw [hne] at this
      exact absurd this (List.not_mem_nil tr)
    constructor
    · rw [calculate_fst_filter, hne]
      rfl
    · rw [calculate_snd_lookup, if_neg hnk, hne]
      rfl
  · have hkeys : tickerKeys (tradesFor x ts) = [x] :=
      tickerKeys_uniform x (tradesFor x ts) hA hne
    have hself : tradesFor x (tradesFor x ts) = tradesFor x ts := by
      refine List.filter_eq_self.mpr (fun tr htr => ?_)
      exact decide_eq_true (hA tr htr)
    have hcalc : calculate (tradesFor x ts) m =
        ((processTicker x (tradesFor x ts) m).1,
          [(x, (processTicker x (tradesFor x ts) m).2)]) := by
      rw [calculate, hkeys]
      simp [hself]
    have hxk : x ∈ tickerKeys ts := by
      rcases List.exists_mem_of_ne_nil _ hne with ⟨tr, htr⟩
      have := List.mem_filter.mp htr
      exact (mem_tickerKeys ts x).mpr ⟨tr, this.1, of_decide_eq_true this.2⟩
    constructor
    · rw [calculate_fst_filter, hcalc]
    · rw [calculate_snd_lookup, if_pos hxk, hcalc]
      simp [List.lookup_cons]

/-- C1: for a method that is neither `"FIFO"` nor `"AVG"`, `calculate` does
NOT fail and does produce output — here one ClosedTrade and one
open-position entry — refuting the claim that such a call fails fast with
no partial output. -/
theorem claim_C1_counterexample :
    (calculate badMethodTrades "XYZ").1.length = 1 ∧
    (calculate badMethodTrades "XYZ").2.length = 1 := by
  constructor
  · rw [calculate_fst_length]
    rfl
  · rw [calculate]
    rfl

/-- C1 (amended): an unrecognized method is not rejected: `calculate` still
emits one ClosedTrade per SELL — each with cost basis `0` — and still
records one open-position entry per ticker of the input. -/
theorem claim_C1 (ts : List Trade) (m : String)
    (h1 : m ≠ "FIFO") (h2 : m ≠ "AVG") :
    (calculate ts m).1.length = ts.countP isSell ∧
    (∀ c ∈ (calculate ts m).1, c.cost_basis = 0) ∧
    ((calculate ts m).2).map Prod.fst = tickerKeys ts :=
  ⟨calculate_fst_length ts m, calculate_cb_zero ts m h1 h2,
    calculate_snd_keys ts m⟩

/-- C1 witness: the amended statement at the concrete two-trade input and
method `"XYZ"`. -/
theorem claim_C1_witness :
    ("XYZ" ≠ "FIFO") ∧ ("XYZ" ≠ "AVG") ∧
    ((calculate badMethodTrades "XYZ").1.length = badMethodTrades.countP isSell ∧
     (∀ c ∈ (calculate badMethodTrades "XYZ").1, c.cost_basis = 0) ∧
     ((calculate badMethodTrades "XYZ").2).map Prod.fst = tickerKeys badMethodTrades) :=
  ⟨by decide, by decide, claim_C1 badMethodTrades "XYZ" (by decide) (by decide)⟩

/-- C2: under AVG, overselling does NOT cap the cost basis at the cost of
the open quantity: selling 20 out of 10 held at unit cost 100 produces a
ClosedTrade with cost basis 2000, strictly more than the 1000 of open cost
available before the sale. -/
theorem claim_C2_counterexample :
    (calculate oversellTrades "AVG").1.map (fun c => c.cost_basis) = [2000] ∧
    totalCost ((processTicker "AAPL" [oversellBuy] "AVG").2) = 1000 ∧
    ¬ ((2000 : ℚ) ≤ 1000) := by
  refine ⟨?_, ?_, by norm_num⟩
  · norm_num [oversellTrades, oversellBuy, calculate, tickerKeys, keyStep,
      tradesFor, processTicker, stepTrade, sellAVG, mkLot, mkClosed,
      totalQty, totalCost, eps]
  · norm_num [oversellBuy, processTicker, stepTrade, mkLot, totalCost]

/-- C2 (amended): overselling empties the ledger under both methods, and
under FIFO the cost basis is exactly the open cost before the sale; under
AVG, however, the cost basis is `qty × avg_unit_cost`, which strictly
exceeds the open cost whenever that cost is positive. -/
theorem claim_C2 (q : ℚ) (ledger : List Lot)
    (hpos : ∀ l ∈ ledger, 0 ≤ l.quantity) (hover : totalQty ledger < q) :
    sellFIFO q ledger = (totalCost ledger, []) ∧
    (0 < totalQty ledger →
      sellAVG q ledger = (q * (totalCost ledger / totalQty ledger), []) ∧
      (0 < totalCost ledger → totalCost ledger < (sellAVG q ledger).1)) := by
  refine ⟨sellFIFO_oversell ledger q hpos hover, fun h0 => ?_⟩
  have havg := sellAVG_oversell q ledger hpos h0 hover
  refine ⟨havg, fun hc => ?_⟩
  rw [havg]
  show totalCost ledger < q * (totalCost ledger / totalQty ledger)
  have hq : 1 < q / totalQty ledger := (one_lt_div h0).mpr hover
  have : q * (totalCost ledger / totalQty ledger) =
      (q / totalQty ledger) * totalCost ledger := by ring
  rw [this]
  exact (lt_mul_iff_one_lt_left hc).mpr hq

/-- C2 witness: the amended statement at the concrete ledger of one lot of
10 units at unit cost 100 and a sale of 20 units. -/
theorem claim_C2_witness :
    (∀ l ∈ [Lot.mk 1 10 100 1000 0], 0 ≤ l.quantity) ∧
    totalQty [Lot.mk 1 10 100 1000 0] < 20 ∧
    (sellFIFO 20 [Lot.mk 1 10 100 1000 0] =
      (totalCost [Lot.mk 1 10 100 1000 0], []) ∧
     (0 < totalQty [Lot.mk 1 10 100 1000 0] →
       sellAVG 20 [Lot.mk 1 10 100 1000 0] =
         (20 * (totalCost [Lot.mk 1 10 100 1000 0] /
           totalQty [Lot.mk 1 10 100 1000 0]), []) ∧
       (0 < totalCost [Lot.mk 1 10 100 1000 0] →
         totalCost [Lot.mk 1 10 100 1000 0] <
           (sellAVG 20 [Lot.mk 1 10 100 1000 0]).1))) :=
  ⟨by norm_num, by norm_num [totalQty],
    claim_C2 20 [Lot.mk 1 10 100 1000 0] (by norm_num) (by norm_num [totalQty])⟩

/-- C3: the FIFO branch has no epsilon cleanup: a partial consumption that
leaves the head lot with `1e-10 < 1e-9` units keeps that lot in the ledger
and in the open-position output, refuting the claim that a lot whose
remaining quantity falls below `1e-9` is removed under either method. -/
theorem claim_C3_counterexample :
    (calculate residueTrades "FIFO").2 =
      [("AAPL", [⟨1, 1/10000000000, 100, 200, 0⟩])] ∧
    (1/10000000000 : ℚ) < eps := by
  constructor
  · norm_num [residueTrades, calculate, tickerKeys, keyStep, tradesFor,
      processTicker, stepTrade, sellFIFO, mkLot, mkClosed, Lot.mk.injEq]
  · norm_num [eps]

/-- C3 (amended): the epsilon cleanup is an AVG-only mechanism: whenever
the AVG branch rescales a ledger of positive open quantity, no lot with
remaining quantity below `1e-9` survives into the resulting ledger (the
FIFO branch performs no such cleanup, as the counterexample shows). -/
theorem claim_C3 (q : ℚ) (ledger : List Lot) (h0 : 0 < totalQty ledger) :
    ∀ l' ∈ (sellAVG q ledger).2, ¬ l'.quantity < eps :=
  sellAVG_mem_eps q ledger h0

/-- C3 witness: the amended statement at a concrete one-lot ledger. -/
theorem claim_C3_witness :
    0 < totalQty [Lot.mk 1 10 100 1000 0] ∧
    (∀ l' ∈ (sellAVG 5 [Lot.mk 1 10 100 1000 0]).2, ¬ l'.quantity < eps) :=
  ⟨by norm_num [totalQty],
    claim_C3 5 [Lot.mk 1 10 100 1000 0] (by norm_num [totalQty])⟩

/-- C4: FIFO on BUY 10 @ 100, BUY 10 @ 200, SELL 15 @ 180 (all fees 0):
one ClosedTrade with cost basis 2000 and realized profit 700, and a single
remaining lot of 5 units at unit cost 200. -/
theorem claim_C4 :
    (calculate demoTrades "FIFO").1.map
      (fun c => (c.cost_basis, c.realized_profit)) = [(2000, 700)] ∧
    (calculate demoTrades "FIFO").2 = [("AAPL", [⟨2, 5, 200, 2000, 0⟩])] := by
  constructor
  · norm_num [demoTrades, demoBuy1, demoBuy2, demoSell, calculate, tickerKeys,
      keyStep, tradesFor, processTicker, stepTrade, sellFIFO, mkLot, mkClosed]
  · norm_num [demoTrades, demoBuy1, demoBuy2, demoSell, calculate, tickerKeys,
      keyStep, tradesFor, processTicker, stepTrade, sellFIFO, mkLot, mkClosed,
      Lot.mk.injEq]

/-- C5: AVG on the same three trades: the pre-sale average unit cost is
150, the ClosedTrade has cost basis 2250 and realized profit 450, and both
lots are scaled by the ratio `(20 - 15) / 20`, leaving 5 units in total. -/
theorem claim_C5 :
    totalCost ((processTicker "AAPL" [demoBuy1, demoBuy2] "AVG").2) /
      totalQty ((processTicker "AAPL" [demoBuy1, demoBuy2] "AVG").2) = 150 ∧
    (calculate demoTrades "AVG").1.map
      (fun c => (c.cost_basis, c.realized_profit)) = [(2250, 450)] ∧
    (calculate demoTrades "AVG").2 =
      [("AAPL", [⟨1, 10 * ((20 - 15) / 20), 100, 1000, 0⟩,
                 ⟨2, 10 * ((20 - 15) / 20), 200, 2000, 0⟩])] ∧
    totalQty [Lot.mk 1 (10 * ((20 - 15) / 20)) 100 1000 0,
              Lot.mk 2 (10 * ((20 - 15) / 20)) 200 2000 0] = 5 := by
  refine ⟨?_, ?_, ?_, by norm_num [totalQty]⟩
  · norm_num [demoBuy1, demoBuy2, processTicker, stepTrade, mkLot,
      totalQty, totalCost]
  · norm_num [demoTrades, demoBuy1, demoBuy2, demoSell, calculate, tickerKeys,
      keyStep, tradesFor, processTicker, stepTrade, sellAVG, mkLot, mkClosed,
      totalQty, totalCost, eps]
  · norm_num [demoTrades, demoBuy1, demoBuy2, demoSell, calculate, tickerKeys,
      keyStep, tradesFor, processTicker, stepTrade, sellAVG, mkLot, mkClosed,
      totalQty, totalCost, eps, Lot.mk.injEq]

/-- C6: for either recognized method, `calculate` emits exactly one
ClosedTrade per SELL trade of the input — BUY trades emit none and a SELL
against an empty ledger still emits one. -/
theorem claim_C6 (ts : List Trade) (m : String)
    (h : m = "FIFO" ∨ m = "AVG") :
    (calculate ts m).1.length = ts.countP isSell :=
  calculate_fst_length ts m

/-- C6 witness: the statement at the three-trade demo input with FIFO. -/
theorem claim_C6_witness :
    ("FIFO" = "FIFO" ∨ "FIFO" = "AVG") ∧
    (calculate demoTrades "FIFO").1.length = demoTrades.countP isSell :=
  ⟨Or.inl rfl, claim_C6 demoTrades "FIFO" (Or.inl rfl)⟩

/-- C7: `calculate` resets all internal state: two engine states with the
same loaded trades produce identical realized profits and open positions,
and calling `calculate` a second time reproduces the first call's outputs
exactly. -/
theorem claim_C7 (s1 s2 : CalcState) (m : String) (h : s1.trades = s2.trades) :
    ((calculateState s1 m).realized_profits = (calculateState s2 m).realized_profits ∧
     (calculateState s1 m).open_positions = (calculateState s2 m).open_positions) ∧
    ((calculateState (calculateState s1 m) m).realized_profits =
       (calculateState s1 m).realized_profits ∧
     (calculateState (calculateState s1 m) m).open_positions =
       (calculateState s1 m).open_positions) := by
  simp [calculateState_eq, h]

/-- C7 witness: the statement at a state polluted with stale results and a
clean state over the same trades. -/
theorem claim_C7_witness :
    (CalcState.mk demoTrades [mkClosed "OLD" "FIFO" demoSell 0] [("OLD", [])]).trades =
      (CalcState.mk demoTrades [] []).trades ∧
    (((calculateState ⟨demoTrades, [mkClosed "OLD" "FIFO" demoSell 0], [("OLD", [])]⟩ "FIFO").realized_profits =
        (calculateState ⟨demoTrades, [], []⟩ "FIFO").realized_profits ∧
      (calculateState ⟨demoTrades, [mkClosed "OLD" "FIFO" demoSell 0], [("OLD", [])]⟩ "FIFO").open_positions =
        (calculateState ⟨demoTrades, [], []⟩ "FIFO").open_positions) ∧
     ((calculateState (calculateState ⟨demoTrades, [mkClosed "OLD" "FIFO" demoSell 0], [("OLD", [])]⟩ "FIFO") "FIFO").realized_profits =
        (calculateState ⟨demoTrades, [mkClosed "OLD" "FIFO" demoSell 0], [("OLD", [])]⟩ "FIFO").realized_profits ∧
      (calculateState (calculateState ⟨demoTrades, [mkClosed "OLD" "FIFO" demoSell 0], [("OLD", [])]⟩ "FIFO") "FIFO").open_positions =
        (calculateState ⟨demoTrades, [mkClosed "OLD" "FIFO" demoSell 0], [("OLD", [])]⟩ "FIFO").open_positions)) :=
  ⟨rfl, claim_C7 ⟨demoTrades, [mkClosed "OLD" "FIFO" demoSell 0], [("OLD", [])]⟩
    ⟨demoTrades, [], []⟩ "FIFO" rfl⟩

/-- C8: on an interleaving of two securities' trade sequences that keeps
each security's internal order, every security's ClosedTrades and recorded
open position agree with running `calculate` on that security's subsequence
alone. -/
theorem claim_C8 (ts : List Trade) (m a b : String) (hab : a ≠ b)
    (hcov : ∀ tr ∈ ts, tr.ticker = a ∨ tr.ticker = b) :
    ((calculate ts m).1.filter (fun c => c.ticker = a) =
       (calculate (tradesFor a ts) m).1 ∧
     ((calculate ts m).2).lookup a = ((calculate (tradesFor a ts) m).2).lookup a) ∧
    ((calculate ts m).1.filter (fun c => c.ticker = b) =
       (calculate (tradesFor b ts) m).1 ∧
     ((calculate ts m).2).lookup b = ((calculate (tradesFor b ts) m).2).lookup b) :=
  ⟨calc_restrict ts m a, calc_restrict ts m b⟩

/-- C8 witness: the statement at a concrete interleaving of two tickers. -/
theorem claim_C8_witness :
    ("AAA" ≠ "BBB") ∧
    (∀ tr ∈ interleavedTrades, tr.ticker = "AAA" ∨ tr.ticker = "BBB") ∧
    (((calculate interleavedTrades "FIFO").1.filter (fun c => c.ticker = "AAA") =
        (calculate (tradesFor "AAA" interleavedTrades) "FIFO").1 ∧
      ((calculate interleavedTrades "FIFO").2).lookup "AAA" =
        ((calculate (tradesFor "AAA" interleavedTrades) "FIFO").2).lookup "AAA") ∧
     ((calculate interleavedTrades "FIFO").1.filter (fun c => c.ticker = "BBB") =
        (calculate (tradesFor "BBB" interleavedTrades) "FIFO").1 ∧
      ((calculate interleavedTrades "FIFO").2).lookup "BBB" =
        ((calculate (tradesFor "BBB" interleavedTrades) "FIFO").2).lookup "BBB")) :=
  ⟨by decide, by decide,
    claim_C8 interleavedTrades "FIFO" "AAA" "BBB" (by decide) (by decide)⟩

/-- C9: a FIFO partial consumption changes only the head lot's remaining
quantity — its other fields and every other lot are untouched — the head
quantity strictly decreases, and (in general) every lot surviving any FIFO
sale descends from an input lot with unchanged identity fields and a
remaining quantity that never increased. -/
theorem claim_C9 (q : ℚ) (l : Lot) (rest : List Lot)
    (h0 : 0 < q) (hlt : q < l.quantity) :
    sellFIFO q (l :: rest) =
      (q * l.unit_cost, { l with quantity := l.quantity - q } :: rest) ∧
    l.quantity - q < l.quantity ∧
    (∀ (q' : ℚ) (led : List Lot), ∀ l' ∈ (sellFIFO q' led).2,
      ∃ l₀ ∈ led, l'.date = l₀.date ∧ l'.unit_cost = l₀.unit_cost ∧
        l'.price_paid = l₀.price_paid ∧ l'.fees_paid = l₀.fees_paid ∧
        l'.quantity ≤ l₀.quantity) := by
  refine ⟨?_, by linarith, fun q' led => sellFIFO_shrink led q'⟩
  rw [sellFIFO, if_pos h0, if_neg (not_le.mpr hlt)]

/-- C9 witness: the statement at a concrete partial consumption of 3 units
out of a 10-unit head lot. -/
theorem claim_C9_witness :
    (0 : ℚ) < 3 ∧ (3 : ℚ) < (Lot.mk 1 10 100 1000 0).quantity ∧
    (sellFIFO 3 [Lot.mk 1 10 100 1000 0] =
      (3 * (Lot.mk 1 10 100 1000 0).unit_cost,
        [⟨1, (Lot.mk 1 10 100 1000 0).quantity - 3, 100, 1000, 0⟩]) ∧
     (Lot.mk 1 10 100 1000 0).quantity - 3 < (Lot.mk 1 10 100 1000 0).quantity ∧
     (∀ (q' : ℚ) (led : List Lot), ∀ l' ∈ (sellFIFO q' led).2,
       ∃ l₀ ∈ led, l'.date = l₀.date ∧ l'.unit_cost = l₀.unit_cost ∧
         l'.price_paid = l₀.price_paid ∧ l'.fees_paid = l₀.fees_paid ∧
         l'.quantity ≤ l₀.quantity)) :=
  ⟨by norm_num, by norm_num,
    claim_C9 3 (Lot.mk 1 10 100 1000 0) [] (by norm_num) (by norm_num)⟩

/-- C10: the open-position map has exactly one entry per ticker appearing
in the input — its key list is duplicate-free and a ticker is present iff
some input trade carries it, so a fully consumed security still has its
(empty-ledger) entry. -/
theorem claim_C10 (ts : List Trade) (m : String) :
    ((calculate ts m).2.map Prod.fst).Nodup ∧
    (∀ t : String, t ∈ (calculate ts m).2.map Prod.fst ↔
      ∃ tr ∈ ts, tr.ticker = t) := by
  rw [calculate_snd_keys]
  exact ⟨tickerKeys_nodup ts, fun t => mem_tickerKeys ts t⟩

end Freedom24
